import Mathlib

/-!
Verification of the noncommutative monomial basis generator from
`generating-noncommutative-monomials.ipynb` (`get_ncmonomials` and `unique`).

A monomial is modelled as the ordered word of its factors: each factor is a
pair `(generator id, conjugated?)`.  Two monomials are equal iff these words
are equal, matching the syntactic (no algebraic simplification) equality the
notebook relies on for symbols of a noncommutative operator algebra.
The Python parameter name `variables` is a reserved word in Lean, so the
embedding calls it `vars`.
-/

/-- A factor of a monomial: a generator id together with a flag telling
whether the factor is the conjugate (Dagger) of the generator. -/
abbrev Letter : Type := Nat × Bool

/-- A monomial: the ordered word of its factors.  The empty word is the
multiplicative identity `S.One`. -/
abbrev Monomial : Type := List Letter

/-- An algebraic generator: an identity and a Hermitian flag, mirroring a
symbolic operator with its `is_hermitian` attribute. -/
structure Generator where
  id : Nat
  is_hermitian : Bool
deriving DecidableEq

/-- `uniqueAux seen seq` mirrors the loop of `unique`: items already in
`seen` are skipped, new items are kept and recorded in `seen`. -/
def uniqueAux (seen : List Monomial) : List Monomial → List Monomial
  | [] => []
  | item :: rest =>
      if item ∈ seen then uniqueAux seen rest
      else item :: uniqueAux (item :: seen) rest

/-- `unique(seq)` from the notebook: stable first-occurrence deduplication. -/
def unique (seq : List Monomial) : List Monomial :=
  uniqueAux [] seq

/-- The products contributed by one entry `var` of `_variables` for one
existing monomial `new_var`, in the order the inner loop appends them:
`var * new_var`, and additionally `Dagger(var) * new_var` when `var != 1`
and `var` is not Hermitian.  The entry `none` models the literal `1` that
`get_ncmonomials` inserts at the front of `_variables`. -/
def mulEntry (var : Option Generator) (new_var : Monomial) : List Monomial :=
  match var with
  | none => [new_var]
  | some g =>
      if g.is_hermitian then [(g.id, false) :: new_var]
      else [(g.id, false) :: new_var, (g.id, true) :: new_var]

/-- One refinement round of `get_ncmonomials`: the temporary sequence is
built with the outer loop over `_variables` and the inner loop over the
current `ncmonomials`, and the round returns `unique(temp)`. -/
def step (entries : List (Option Generator)) (ncmonomials : List Monomial) :
    List Monomial :=
  unique (entries.flatMap fun var => ncmonomials.flatMap fun new_var => mulEntry var new_var)

/-- The `for _ in range(degree)` loop of `get_ncmonomials`. -/
def loop (entries : List (Option Generator)) : Nat → List Monomial → List Monomial
  | 0, ncmonomials => ncmonomials
  | Nat.succ n, ncmonomials => loop entries n (step entries ncmonomials)

/-- `get_ncmonomials(variables, degree)` from the notebook, for a
non-negative degree: if the generator list is empty it returns `[S.One]`;
otherwise it prepends `1` to a copy of the list, starts from `[S.One]`
and runs `degree` refinement rounds. -/
def get_ncmonomials (vars : List Generator) (degree : Nat) : List Monomial :=
  if vars.isEmpty then [[]]
  else loop (none :: vars.map some) degree [[]]

/-- `get_ncmonomials` with an arbitrary integer degree, mirroring Python
semantics: `range(degree)` is empty for `degree < 0`, so the loop runs
`max(degree, 0)` times and the function returns normally. -/
def get_ncmonomialsZ (vars : List Generator) (degree : Int) : List Monomial :=
  get_ncmonomials vars degree.toNat

/-- The factor choices a single generator contributes: itself, and its
conjugate when it is not Hermitian. -/
def letterChoices (g : Generator) : List Letter :=
  if g.is_hermitian then [(g.id, false)] else [(g.id, false), (g.id, true)]

/-- All factor choices contributed by a generator list. -/
def choices (vars : List Generator) : List Letter :=
  vars.flatMap letterChoices

/-- The refinement round exactly as the specification describes it, written
from the specification's words to compare against the code's actual round:
the new products are `m * g` (existing monomial right-multiplied by the
generator, or by its conjugate when the generator is not Hermitian), the
outer loop runs over the existing monomials and the inner loop over the
generators in input order with the non-conjugated variant before the
conjugated one, and the next working set is the stable first-occurrence
deduplication of that temporary sequence. -/
def specDescribedRound (vars : List Generator) (ncm : List Monomial) :
    List Monomial :=
  unique (ncm.flatMap fun m => vars.flatMap fun g =>
    (m ++ [(g.id, false)]) :: (if g.is_hermitian then [] else [m ++ [(g.id, true)]]))

theorem mem_uniqueAux (seq : List Monomial) :
    ∀ (seen : List Monomial) (x : Monomial),
      x ∈ uniqueAux seen seq ↔ x ∈ seq ∧ x ∉ seen := by
  induction seq with
  | nil => intro seen x; simp [uniqueAux]
  | cons item rest ih =>
      intro seen x
      simp only [uniqueAux]
      by_cases hmem : item ∈ seen
      · rw [if_pos hmem, ih]
        constructor
        · rintro ⟨hx, hns⟩; exact ⟨List.mem_cons_of_mem _ hx, hns⟩
        · rintro ⟨hx, hns⟩
          rcases List.mem_cons.mp hx with rfl | h
          · exact absurd hmem hns
          · exact ⟨h, hns⟩
      · rw [if_neg hmem]
        constructor
        · intro hx
          rcases List.mem_cons.mp hx with rfl | h
          · exact ⟨List.mem_cons_self _ _, hmem⟩
          · obtain ⟨h₁, h₂⟩ := (ih _ _).mp h
            exact ⟨List.mem_cons_of_mem _ h₁,
              fun hc => h₂ (List.mem_cons_of_mem _ hc)⟩
        · rintro ⟨hx, hns⟩
          rcases List.mem_cons.mp hx with rfl | h
          · exact List.mem_cons_self _ _
          · by_cases hxi : x = item
            · exact hxi ▸ List.mem_cons_self _ _
            · refine List.mem_cons_of_mem _ ((ih _ _).mpr ⟨h, ?_⟩)
              intro hc
              rcases List.mem_cons.mp hc with h' | h'
              · exact hxi h'
              · exact hns h'

theorem mem_unique (seq : List Monomial) (x : Monomial) :
    x ∈ unique seq ↔ x ∈ seq := by
  simp [unique, mem_uniqueAux]

theorem nodup_uniqueAux (seq : List Monomial) :
    ∀ seen : List Monomial, (uniqueAux seen seq).Nodup := by
  induction seq with
  | nil => intro seen; simp [uniqueAux]
  | cons item rest ih =>
      intro seen
      simp only [uniqueAux]
      by_cases hmem : item ∈ seen
      · rw [if_pos hmem]; exact ih seen
      · rw [if_neg hmem]
        refine List.Nodup.cons ?_ (ih (item :: seen))
        intro hcontra
        exact ((mem_uniqueAux rest (item :: seen) item).mp hcontra).2
          (List.mem_cons_self _ _)

theorem nodup_unique (seq : List Monomial) : (unique seq).Nodup :=
  nodup_uniqueAux seq []

theorem uniqueAux_eq_self (seq : List Monomial) :
    ∀ seen : List Monomial, seq.Nodup → (∀ x ∈ seq, x ∉ seen) →
      uniqueAux seen seq = seq := by
  induction seq with
  | nil => intro seen _ _; rfl
  | cons item rest ih =>
      intro seen hnd hdisj
      have hni : item ∉ seen := hdisj item (List.mem_cons_self _ _)
      simp only [uniqueAux, if_neg hni]
      refine congrArg (item :: ·) (ih (item :: seen) (List.Nodup.of_cons hnd) ?_)
      intro x hx hxmem
      rcases List.mem_cons.mp hxmem with h | h
      · exact (List.nodup_cons.mp hnd).1 (h ▸ hx)
      · exact hdisj x (List.mem_cons_of_mem _ hx) h

theorem unique_eq_self (seq : List Monomial) (h : seq.Nodup) : unique seq = seq :=
  uniqueAux_eq_self seq [] h (by intro x _ hx; simp at hx)

theorem unique_cons (a : Monomial) (rest : List Monomial) :
    unique (a :: rest) = a :: uniqueAux [a] rest := by
  simp [unique, uniqueAux]

theorem mem_mulEntry_some (g : Generator) (m x : Monomial) :
    x ∈ mulEntry (some g) m ↔ ∃ c ∈ letterChoices g, x = c :: m := by
  simp only [mulEntry, letterChoices]
  by_cases h : g.is_hermitian = true <;> simp [h]

theorem mem_choices (vars : List Generator) (c : Letter) :
    c ∈ choices vars ↔ ∃ g ∈ vars, c ∈ letterChoices g := by
  simp [choices, List.mem_flatMap]

theorem mem_step (vars : List Generator) (ncm : List Monomial) (x : Monomial) :
    x ∈ step (none :: vars.map some) ncm ↔
      x ∈ ncm ∨ ∃ c ∈ choices vars, ∃ m ∈ ncm, x = c :: m := by
  simp only [step, mem_unique, List.flatMap_cons, List.mem_append, List.mem_flatMap,
    List.mem_map]
  constructor
  · rintro (h | ⟨var, ⟨g, hg, rfl⟩, m, hm, hx⟩)
    · left
      obtain ⟨m, hm, hx⟩ := h
      simp only [mulEntry, List.mem_singleton] at hx
      exact hx ▸ hm
    · right
      obtain ⟨c, hc, rfl⟩ := (mem_mulEntry_some g m x).mp hx
      exact ⟨c, (mem_choices vars c).mpr ⟨g, hg, hc⟩, m, hm, rfl⟩
  · rintro (h | ⟨c, hc, m, hm, rfl⟩)
    · exact Or.inl ⟨x, h, by simp [mulEntry]⟩
    · right
      obtain ⟨g, hg, hcg⟩ := (mem_choices vars c).mp hc
      exact ⟨some g, ⟨g, hg, rfl⟩, m, hm, (mem_mulEntry_some g m _).mpr ⟨c, hcg, rfl⟩⟩

theorem mem_loop_char (vars : List Generator) :
    ∀ (n : Nat) (ncm : List Monomial) (k : Nat),
      (∀ m, m ∈ ncm ↔ m.length ≤ k ∧ ∀ c ∈ m, c ∈ choices vars) →
      ∀ m, m ∈ loop (none :: vars.map some) n ncm ↔
        m.length ≤ k + n ∧ ∀ c ∈ m, c ∈ choices vars := by
  intro n
  induction n with
  | zero => intro ncm k h m; simpa using h m
  | succ n ih =>
      intro ncm k h m
      have hstep : ∀ x, x ∈ step (none :: vars.map some) ncm ↔
          x.length ≤ k + 1 ∧ ∀ c ∈ x, c ∈ choices vars := by
        intro x
        rw [mem_step]
        constructor
        · rintro (hm | ⟨c, hc, m₀, hm₀, rfl⟩)
          · obtain ⟨hl, hs⟩ := (h x).mp hm
            exact ⟨hl.trans (Nat.le_succ k), hs⟩
          · obtain ⟨hl, hs⟩ := (h m₀).mp hm₀
            refine ⟨by simpa using Nat.succ_le_succ hl, ?_⟩
            intro c' hc'
            rcases List.mem_cons.mp hc' with rfl | h'
            · exact hc
            · exact hs c' h'
        · rintro ⟨hl, hs⟩
          match x with
          | [] => exact Or.inl ((h []).mpr ⟨Nat.zero_le k, by simp⟩)
          | c :: m₀ =>
              right
              refine ⟨c, hs c (List.mem_cons_self _ _), m₀,
                (h m₀).mpr ⟨?_, ?_⟩, rfl⟩
              · simp only [List.length_cons] at hl
                omega
              · intro c' h'; exact hs c' (List.mem_cons_of_mem _ h')
      have hrec := ih (step (none :: vars.map some) ncm) (k + 1) hstep m
      have heq : k + 1 + n = k + (n + 1) := by omega
      rw [heq] at hrec
      simpa [loop] using hrec

theorem mem_get_ncmonomials (vars : List Generator) (d : Nat) (m : Monomial) :
    m ∈ get_ncmonomials vars d ↔ m.length ≤ d ∧ ∀ c ∈ m, c ∈ choices vars := by
  cases vars with
  | nil =>
      simp only [get_ncmonomials, List.isEmpty_nil, if_pos, List.mem_singleton]
      constructor
      · rintro rfl; simp [choices]
      · rintro ⟨hl, hs⟩
        match m with
        | [] => rfl
        | c :: m₀ => exact absurd (hs c (List.mem_cons_self _ _)) (by simp [choices])
  | cons g rest =>
      have hbase : ∀ x : Monomial, x ∈ ([[]] : List Monomial) ↔
          x.length ≤ 0 ∧ ∀ c ∈ x, c ∈ choices (g :: rest) := by
        intro x
        constructor
        · intro h; simp only [List.mem_singleton] at h; subst h; simp
        · rintro ⟨hl, _⟩
          simp [List.length_eq_zero.mp (Nat.le_zero.mp hl)]
      have hchar := mem_loop_char (g :: rest) d [[]] 0 hbase m
      simpa [get_ncmonomials] using hchar

theorem mem_letterChoices (g : Generator) (c : Letter) :
    c ∈ letterChoices g ↔
      c = (g.id, false) ∨ (g.is_hermitian = false ∧ c = (g.id, true)) := by
  cases hh : g.is_hermitian <;> simp [letterChoices, hh]

theorem mulEntry_some_eq (v : Generator) (m : Monomial) :
    mulEntry (some v) m =
      ((v.id, false) :: m) :: (if v.is_hermitian then [] else [(v.id, true) :: m]) := by
  cases hh : v.is_hermitian <;> simp [mulEntry, hh]

theorem temp_decomp (vars : List Generator) (ncm : List Monomial) :
    ((none :: vars.map some).flatMap fun var => ncm.flatMap fun m => mulEntry var m) =
      ncm ++ (vars.flatMap fun v => ncm.flatMap fun m => mulEntry (some v) m) := by
  rw [List.flatMap_cons, List.flatMap_map]
  congr 1
  simp [mulEntry]

theorem loop_succ_comm (entries : List (Option Generator)) :
    ∀ (n : Nat) (ncm : List Monomial),
      loop entries (n + 1) ncm = step entries (loop entries n ncm) := by
  intro n
  induction n with
  | zero => intro ncm; rfl
  | succ n ih =>
      intro ncm
      show loop entries (n + 1) (step entries ncm) = _
      rw [ih (step entries ncm)]
      rfl

theorem step_head (vars : List Generator) (ncm : List Monomial)
    (h : ncm.head? = some []) :
    (step (none :: vars.map some) ncm).head? = some [] := by
  match ncm, h with
  | [] :: t, _ =>
      rw [step, temp_decomp]
      rw [List.cons_append, unique_cons]
      rfl

theorem loop_invariants (vars : List Generator) :
    ∀ (n : Nat) (ncm : List Monomial), ncm.Nodup → ncm.head? = some [] →
      (loop (none :: vars.map some) n ncm).Nodup ∧
      (loop (none :: vars.map some) n ncm).head? = some [] := by
  intro n
  induction n with
  | zero => intro ncm h1 h2; exact ⟨h1, h2⟩
  | succ n ih =>
      intro ncm h1 h2
      exact ih (step (none :: vars.map some) ncm) (nodup_unique _)
        (step_head vars ncm h2)

theorem get_ncmonomials_zero (vars : List Generator) :
    get_ncmonomials vars 0 = [[]] := by
  cases vars <;> simp [get_ncmonomials, loop]

theorem get_ncmonomials_cons (g : Generator) (rest : List Generator) (d : Nat) :
    get_ncmonomials (g :: rest) d = loop (none :: (g :: rest).map some) d [[]] := by
  simp [get_ncmonomials]

theorem get_ncmonomials_degree_one (g : Generator) (rest : List Generator) :
    get_ncmonomials (g :: rest) 1 =
      unique ([] :: (choices (g :: rest)).map fun c => [c]) := by
  rw [get_ncmonomials_cons]
  show step (none :: (g :: rest).map some) [[]] = _
  rw [step]
  congr 1
  rw [temp_decomp]
  have hme : ∀ v : Generator, ([[]] : List Monomial).flatMap (fun m => mulEntry (some v) m) =
      (letterChoices v).map fun c => [c] := by
    intro v
    rw [List.flatMap_singleton]
    cases hh : v.is_hermitian <;> simp [mulEntry, letterChoices, hh]
  simp only [hme]
  rw [← List.map_flatMap]
  rfl

theorem choices_all_hermitian (vars : List Generator) :
    (∀ g ∈ vars, g.is_hermitian = true) →
      choices vars = vars.map fun g => (g.id, false) := by
  induction vars with
  | nil => intro _; rfl
  | cons g rest ih =>
      intro h
      have hg := h g (List.mem_cons_self _ _)
      show letterChoices g ++ choices rest = _
      rw [letterChoices, if_pos hg, List.map_cons,
        ih fun g' hg' => h g' (List.mem_cons_of_mem _ hg')]
      rfl

theorem choices_all_nonhermitian (vars : List Generator) :
    (∀ g ∈ vars, g.is_hermitian = false) →
      choices vars = vars.flatMap fun g => [(g.id, false), (g.id, true)] := by
  induction vars with
  | nil => intro _; rfl
  | cons g rest ih =>
      intro h
      have hg := h g (List.mem_cons_self _ _)
      show letterChoices g ++ choices rest = _
      rw [List.flatMap_cons, letterChoices, if_neg (by simp [hg]),
        ih fun g' hg' => h g' (List.mem_cons_of_mem _ hg')]

theorem fst_mem_of_mem_choices (vars : List Generator) (c : Letter)
    (h : c ∈ choices vars) : c.1 ∈ vars.map Generator.id := by
  obtain ⟨g, hg, hcg⟩ := (mem_choices vars c).mp h
  rcases (mem_letterChoices g c).mp hcg with rfl | ⟨_, rfl⟩ <;>
    exact List.mem_map.mpr ⟨g, hg, rfl⟩

theorem choices_nodup (vars : List Generator)
    (hN : (vars.map Generator.id).Nodup) : (choices vars).Nodup := by
  induction vars with
  | nil => simp [choices]
  | cons g rest ih =>
      rw [List.map_cons, List.nodup_cons] at hN
      have hlc : (letterChoices g).Nodup := by
        cases hh : g.is_hermitian <;> simp [letterChoices, hh]
      refine List.Nodup.append hlc (ih hN.2) ?_
      intro c hc₁ hc₂
      have h1 : c.1 = g.id := by
        rcases (mem_letterChoices g c).mp hc₁ with rfl | ⟨_, rfl⟩ <;> rfl
      exact hN.1 (h1 ▸ fst_mem_of_mem_choices rest c hc₂)

theorem get_ncmonomials_one_of_nodup (g : Generator) (rest : List Generator)
    (hN : (((g :: rest)).map Generator.id).Nodup) :
    get_ncmonomials (g :: rest) 1 = [] :: (choices (g :: rest)).map fun c => [c] := by
  rw [get_ncmonomials_degree_one, unique_eq_self]
  refine List.nodup_cons.mpr ⟨?_, ?_⟩
  · intro hmem
    obtain ⟨c, _, hc⟩ := List.mem_map.mp hmem
    simp at hc
  · exact (choices_nodup _ hN).map fun a b hab => by simpa using hab

/-- Claim C1: for every generator list and every degree `d ≥ 0`,
`get_ncmonomials` returns, as a set, exactly the syntactically distinct
monomials of degree at most `d` whose factors are generators or, for
non-Hermitian generators only, their conjugates; Hermitian generators
contribute only themselves as factor choices. -/
theorem get_ncmonomials_mem_iff_degree_le (vars : List Generator) (d : Nat)
    (m : Monomial) :
    m ∈ get_ncmonomials vars d ↔
      m.length ≤ d ∧ ∀ c ∈ m, ∃ g ∈ vars,
        c = (g.id, false) ∨ (g.is_hermitian = false ∧ c = (g.id, true)) := by
  rw [mem_get_ncmonomials]
  constructor <;> rintro ⟨hl, hs⟩ <;> refine ⟨hl, fun c hc => ?_⟩
  · obtain ⟨g, hg, hcg⟩ := (mem_choices vars c).mp (hs c hc)
    exact ⟨g, hg, (mem_letterChoices g c).mp hcg⟩
  · obtain ⟨g, hg, hcg⟩ := hs c hc
    exact (mem_choices vars c).mpr ⟨g, hg, (mem_letterChoices g c).mpr hcg⟩

/-- Claim C4: for every generator list and every degree `d ≥ 0`, the
returned sequence has no duplicate monomials and its first element is the
identity monomial. -/
theorem get_ncmonomials_nodup_and_head (vars : List Generator) (d : Nat) :
    (get_ncmonomials vars d).Nodup ∧
      (get_ncmonomials vars d).head? = some [] := by
  cases vars with
  | nil => simp [get_ncmonomials]
  | cons g rest =>
      rw [get_ncmonomials_cons]
      exact loop_invariants (g :: rest) d [[]] (by simp) rfl

/-- Claim C5: the basis at degree `d + 1` contains the basis at degree `d`,
and, as a set, the basis at degree `d + 1` consists exactly of the identity
monomial together with every product of a basis element of degree `d` by a
generator or its conjugate. -/
theorem get_ncmonomials_monotone_closure (vars : List Generator) (d : Nat)
    (m : Monomial) :
    (m ∈ get_ncmonomials vars d → m ∈ get_ncmonomials vars (d + 1)) ∧
    (m ∈ get_ncmonomials vars (d + 1) ↔
      m = [] ∨ ∃ c ∈ choices vars, ∃ m₀ ∈ get_ncmonomials vars d, m = c :: m₀) := by
  constructor
  · intro h
    obtain ⟨hl, hs⟩ := (mem_get_ncmonomials vars d m).mp h
    exact (mem_get_ncmonomials vars (d + 1) m).mpr ⟨hl.trans (Nat.le_succ d), hs⟩
  · constructor
    · intro h
      obtain ⟨hl, hs⟩ := (mem_get_ncmonomials vars (d + 1) m).mp h
      match m with
      | [] => exact Or.inl rfl
      | c :: m₀ =>
          refine Or.inr ⟨c, hs c (List.mem_cons_self _ _),
            m₀, (mem_get_ncmonomials vars d m₀).mpr ⟨?_, ?_⟩, rfl⟩
          · simp only [List.length_cons] at hl; omega
          · intro c' hc'; exact hs c' (List.mem_cons_of_mem _ hc')
    · rintro (rfl | ⟨c, hc, m₀, hm₀, rfl⟩)
      · exact (mem_get_ncmonomials vars (d + 1) []).mpr ⟨Nat.zero_le _, by simp⟩
      · obtain ⟨hl, hs⟩ := (mem_get_ncmonomials vars d m₀).mp hm₀
        refine (mem_get_ncmonomials vars (d + 1) (c :: m₀)).mpr
          ⟨by simpa using Nat.succ_le_succ hl, fun c' hc' => ?_⟩
        rcases List.mem_cons.mp hc' with rfl | h'
        · exact hc
        · exact hs c' h'

theorem get_ncmonomials_monotone_closure_witness :
    ([] ∈ get_ncmonomials [⟨0, true⟩] 1) ∧
      ([(0, false)] ∈ get_ncmonomials [⟨0, true⟩] 1) := by
  constructor
  · exact (get_ncmonomials_monotone_closure [⟨0, true⟩] 0 []).1 (by decide)
  · exact (get_ncmonomials_monotone_closure [⟨0, true⟩] 0 [(0, false)]).2.mpr
      (Or.inr ⟨(0, false), by decide, [], by decide, rfl⟩)

/-- Claim C9: for the empty generator list, `get_ncmonomials` returns exactly
the one-element sequence containing the identity monomial, for every degree. -/
theorem get_ncmonomials_empty (d : Nat) : get_ncmonomials [] d = [[]] := rfl

/-- Claim C10: a generator list in which the same generator occurs twice
produces, as a set, the same monomials as the list with the repeated
occurrence removed: the syntactic deduplication absorbs repeated input
generators. -/
theorem get_ncmonomials_duplicate_generator_absorbed
    (l₁ l₂ l₃ : List Generator) (g : Generator) (d : Nat) (m : Monomial) :
    m ∈ get_ncmonomials (l₁ ++ g :: (l₂ ++ g :: l₃)) d ↔
      m ∈ get_ncmonomials (l₁ ++ g :: (l₂ ++ l₃)) d := by
  have hch : ∀ c : Letter, c ∈ choices (l₁ ++ g :: (l₂ ++ g :: l₃)) ↔
      c ∈ choices (l₁ ++ g :: (l₂ ++ l₃)) := by
    intro c
    simp only [mem_choices, List.mem_append, List.mem_cons]
    constructor <;> rintro ⟨g', hg', hc⟩ <;> exact ⟨g', by tauto, hc⟩
  rw [mem_get_ncmonomials, mem_get_ncmonomials]
  constructor
  · rintro ⟨hl, hs⟩; exact ⟨hl, fun c hc => (hch c).mp (hs c hc)⟩
  · rintro ⟨hl, hs⟩; exact ⟨hl, fun c hc => (hch c).mpr (hs c hc)⟩

/-- Claim C6: for a list of Hermitian generators with pairwise distinct
identities and degree 1, the result is the identity followed by each
generator once, so it has exactly `n + 1` elements. -/
theorem get_ncmonomials_hermitian_degree_one (vars : List Generator)
    (hH : ∀ g ∈ vars, g.is_hermitian = true)
    (hN : (vars.map Generator.id).Nodup) :
    get_ncmonomials vars 1 = [] :: vars.map (fun g => [(g.id, false)]) ∧
      (get_ncmonomials vars 1).length = vars.length + 1 := by
  have hmain : get_ncmonomials vars 1 = [] :: vars.map fun g => [(g.id, false)] := by
    cases vars with
    | nil => rfl
    | cons g rest =>
        rw [get_ncmonomials_one_of_nodup g rest hN, choices_all_hermitian _ hH,
          List.map_map]
        rfl
  refine ⟨hmain, ?_⟩
  rw [hmain]
  simp

theorem get_ncmonomials_hermitian_degree_one_witness :
    get_ncmonomials [⟨0, true⟩, ⟨1, true⟩] 1 =
        [] :: [Generator.mk 0 true, Generator.mk 1 true].map (fun g => [(g.id, false)]) ∧
      (get_ncmonomials [⟨0, true⟩, ⟨1, true⟩] 1).length =
        [Generator.mk 0 true, Generator.mk 1 true].length + 1 :=
  get_ncmonomials_hermitian_degree_one [⟨0, true⟩, ⟨1, true⟩] (by decide) (by decide)

/-- Claim C7: for a list of non-Hermitian generators with pairwise distinct
identities and degree 1, the result is the identity followed by each
generator and its conjugate, so it has exactly `2n + 1` pairwise distinct
elements. -/
theorem get_ncmonomials_nonhermitian_degree_one (vars : List Generator)
    (hH : ∀ g ∈ vars, g.is_hermitian = false)
    (hN : (vars.map Generator.id).Nodup) :
    get_ncmonomials vars 1 =
        [] :: vars.flatMap (fun g => [[(g.id, false)], [(g.id, true)]]) ∧
      (get_ncmonomials vars 1).length = 2 * vars.length + 1 ∧
      (get_ncmonomials vars 1).Nodup := by
  have hmain : get_ncmonomials vars 1 =
      [] :: vars.flatMap fun g => [[(g.id, false)], [(g.id, true)]] := by
    cases vars with
    | nil => rfl
    | cons g rest =>
        rw [get_ncmonomials_one_of_nodup g rest hN, choices_all_nonhermitian _ hH,
          List.map_flatMap]
        rfl
  have hlen : ∀ l : List Generator,
      (l.flatMap fun g => ([[(g.id, false)], [(g.id, true)]] : List Monomial)).length =
        2 * l.length := by
    intro l
    induction l with
    | nil => rfl
    | cons a t ih =>
        rw [List.flatMap_cons, List.length_append, ih]
        simp [Nat.mul_succ]
        omega
  refine ⟨hmain, ?_, (get_ncmonomials_nodup_and_head vars 1).1⟩
  rw [hmain, List.length_cons, hlen]

theorem get_ncmonomials_nonhermitian_degree_one_witness :
    get_ncmonomials [⟨0, false⟩, ⟨1, false⟩] 1 =
        [] :: [Generator.mk 0 false, Generator.mk 1 false].flatMap
          (fun g => [[(g.id, false)], [(g.id, true)]]) ∧
      (get_ncmonomials [⟨0, false⟩, ⟨1, false⟩] 1).length =
        2 * [Generator.mk 0 false, Generator.mk 1 false].length + 1 ∧
      (get_ncmonomials [⟨0, false⟩, ⟨1, false⟩] 1).Nodup :=
  get_ncmonomials_nonhermitian_degree_one [⟨0, false⟩, ⟨1, false⟩] (by decide) (by decide)

/-- Claim C8: for the two Hermitian generators `X0`, `X1` and degree 2, the
output is, as an unordered set, exactly the seven monomials
`1, X0, X1, X0·X0, X0·X1, X1·X0, X1·X1`, and `X0·X1` and `X1·X0` are
distinct monomials. -/
theorem get_ncmonomials_two_hermitian_degree_two :
    (get_ncmonomials [⟨0, true⟩, ⟨1, true⟩] 2).toFinset =
        ({[], [(0, false)], [(1, false)], [(0, false), (0, false)],
          [(0, false), (1, false)], [(1, false), (0, false)],
          [(1, false), (1, false)]} : Finset Monomial) ∧
      ([(0, false), (1, false)] : Monomial) ≠ [(1, false), (0, false)] := by
  decide

/-- Claim C2 (counterexample): already for one Hermitian generator and the
first refinement round, the code's working set (which retains the identity,
because the prepended entry `1` reproduces every existing monomial) differs
from the deduplicated temporary sequence the specification describes, which
contains only the products `m * g`. -/
theorem get_ncmonomials_round_ne_described :
    get_ncmonomials [⟨0, true⟩] 1 = [[], [(0, false)]] ∧
      specDescribedRound [⟨0, true⟩] (get_ncmonomials [⟨0, true⟩] 0) =
        [[(0, false)]] ∧
      get_ncmonomials [⟨0, true⟩] 1 ≠
        specDescribedRound [⟨0, true⟩] (get_ncmonomials [⟨0, true⟩] 0) := by
  decide

/-- Claim C2 (amended): in each refinement round the temporary sequence
consists of the existing monomials in order (the products `1 * new_var`
contributed by the entry `1` prepended to the generator list), followed,
for each generator in input order, by the products obtained by multiplying
the generator on the left of each existing monomial in order, with the
conjugated variant immediately after the non-conjugated one when the
generator is not Hermitian; the next working set is the stable
first-occurrence deduplication of that sequence. -/
theorem get_ncmonomials_succ_round_structure (g : Generator)
    (rest : List Generator) (d : Nat) :
    get_ncmonomials (g :: rest) (d + 1) =
      unique (get_ncmonomials (g :: rest) d ++
        (g :: rest).flatMap fun v =>
          (get_ncmonomials (g :: rest) d).flatMap fun m =>
            ((v.id, false) :: m) ::
              (if v.is_hermitian then [] else [(v.id, true) :: m])) := by
  rw [get_ncmonomials_cons, loop_succ_comm, ← get_ncmonomials_cons]
  rw [step, temp_decomp]
  simp only [mulEntry_some_eq]

/-- Claim C3 (counterexample): called with the negative degree `-1`, the
code raises no invalid-argument condition: `range(-1)` is empty, so it
returns the normal degree-0 result, the singleton identity basis. -/
theorem get_ncmonomialsZ_neg_returns_normally :
    get_ncmonomialsZ [⟨0, true⟩] (-1) = [[]] ∧
      get_ncmonomialsZ [⟨0, true⟩] (-1) = get_ncmonomialsZ [⟨0, true⟩] 0 := by
  decide

/-- Claim C3 (amended): for every negative degree, `get_ncmonomials` runs
its loop zero times and returns normally the same result as degree 0: the
list containing only the identity monomial. -/
theorem get_ncmonomialsZ_neg_eq_identity (vars : List Generator) (d : Int)
    (h : d < 0) : get_ncmonomialsZ vars d = [[]] := by
  rw [get_ncmonomialsZ, show d.toNat = 0 from Int.toNat_eq_zero.mpr (le_of_lt h),
    get_ncmonomials_zero]

theorem get_ncmonomialsZ_neg_eq_identity_witness :
    get_ncmonomialsZ [⟨0, true⟩] (-2) = [[]] :=
  get_ncmonomialsZ_neg_eq_identity [⟨0, true⟩] (-2) (by decide)
